import Mathlib

/-
Verification of `scripts/verify_embeddings.py` (embedding validator and
deterministic mock-embedding generator).

Modelling conventions:
* Python floats are idealised as exact values.  A float is either NaN, a
  signed infinity, or a finite rational, captured by the inductive `FVal`;
  the IEEE-754 behaviour of `+`, `*`, `<`, `abs` on these values is encoded
  case by case (NaN propagates through arithmetic and makes every `<`
  comparison false).
* `math.sqrt` cannot be represented inside ℚ.  The model therefore carries
  the radicand (the sum of squares) and compares it against the squares of
  the thresholds; since x ↦ √x is strictly monotone on [0, ∞), `√s < c`
  iff `s < c²` for `c > 0`.  The lemmas `sqrtLt_eq_real` and
  `sqrtGt_eq_real` below prove that this encoding agrees with `Real.sqrt`.
* Fallible Python operations are modelled in `Except PyError`:
  `min()` / `max()` of an empty sequence raise `ValueError`, `i % 0` raises
  `ZeroDivisionError`, out-of-range list assignment raises `IndexError`,
  and `math.sqrt` of a negative number raises `ValueError`.
* Strings are modelled as lists of codepoints (`List Nat`); the validation
  issue strings are modelled by the inductive `Issue`, one constructor per
  f-string in the source, carrying the interpolated data.
-/

/-- Exceptions that the modelled Python code can raise. -/
inductive PyError
  | valueError
  | zeroDivisionError
  | indexError
deriving DecidableEq

/-- A Python float value: NaN, a signed infinity (`inf true` is +∞,
`inf false` is -∞), or a finite value idealised as a rational. -/
inductive FVal
  | nan : FVal
  | inf : Bool → FVal
  | fin : ℚ → FVal
deriving DecidableEq

/-- Model of `math.isnan`. -/
def FVal.isnan : FVal → Bool
  | .nan => true
  | _ => false

/-- Model of `math.isinf` (true for either infinity). -/
def FVal.isinf : FVal → Bool
  | .inf _ => true
  | _ => false

/-- IEEE-754 `x < y` on Python floats: any comparison involving NaN is
false; -∞ is below and +∞ above every other value; finite values compare
as rationals. -/
def ltF : FVal → FVal → Bool
  | .nan, _ => false
  | _, .nan => false
  | .inf true, _ => false
  | .inf false, .inf false => false
  | .inf false, _ => true
  | .fin _, .inf true => true
  | .fin _, .inf false => false
  | .fin a, .fin b => decide (a < b)

/-- IEEE-754 `x + y`: NaN propagates, ∞ + (-∞) is NaN, an infinity
absorbs finite summands. -/
def addF : FVal → FVal → FVal
  | .nan, _ => .nan
  | _, .nan => .nan
  | .inf a, .inf b => if a = b then .inf a else .nan
  | .inf a, .fin _ => .inf a
  | .fin _, .inf b => .inf b
  | .fin a, .fin b => .fin (a + b)

/-- IEEE-754 `x * x` (the only multiplication the source performs):
NaN * NaN = NaN, (±∞)² = +∞, finite values square exactly. -/
def mulSelf : FVal → FVal
  | .nan => .nan
  | .inf _ => .inf true
  | .fin q => .fin (q * q)

/-- Model of `abs` on floats: `abs(nan) = nan`, `abs(±∞) = +∞`. -/
def absF : FVal → FVal
  | .nan => .nan
  | .inf _ => .inf true
  | .fin q => .fin |q|

/-- The radicand computed inside `calculate_norm`:
`sum(x * x for x in embedding)`, a left fold starting from `0` exactly as
Python `sum` evaluates its generator argument. -/
def sumSq (embedding : List FVal) : FVal :=
  embedding.foldl (fun acc x => addF acc (mulSelf x)) (.fin 0)

/-- Model of `calculate_norm(embedding) = math.sqrt(sum(x*x for x in embedding))`.
The square root of a rational is in general irrational, so the model
returns the radicand `sumSq embedding` and every caller compares it
against the square of its threshold (see `sqrtLt`, `sqrtGt` and the
bridging lemmas `sqrtLt_eq_real`, `sqrtGt_eq_real`).  `math.sqrt` raises
`ValueError` on negative input (shown unreachable in `calculate_norm_ok`)
and maps NaN to NaN and +∞ to +∞, which the radicand representation
preserves. -/
def calculate_norm (embedding : List FVal) : Except PyError FVal :=
  match sumSq embedding with
  | .nan => .ok .nan
  | .inf true => .ok (.inf true)
  | .inf false => .error .valueError
  | .fin q => if q < 0 then .error .valueError else .ok (.fin q)

/-- Boolean test `√s < c` for a radicand `s` and a threshold `c > 0`:
false when `√s` is NaN or +∞, and `s < c²` in the finite case.  The
`-∞`-radicand case is unreachable (`calculate_norm` raises first); the
match returns `false` there. -/
def sqrtLt (s : FVal) (c : ℚ) : Bool :=
  match s with
  | .nan => false
  | .inf _ => false
  | .fin q => decide (q < c * c)

/-- Boolean test `√s > c` for a radicand `s` and a threshold `c ≥ 0`:
false when `√s` is NaN, true when it is +∞, and `s > c²` in the finite
case. -/
def sqrtGt (s : FVal) (c : ℚ) : Bool :=
  match s with
  | .nan => false
  | .inf b => b
  | .fin q => decide (c * c < q)

/-- Model of Python `min(seq)`: `ValueError` on the empty sequence,
otherwise a left fold keeping the accumulator unless the next element is
strictly `<` it (CPython compares with `Py_LT`).  Consequently a NaN
accumulator is never replaced. -/
def pyMin : List FVal → Except PyError FVal
  | [] => .error .valueError
  | x :: xs => .ok (xs.foldl (fun acc y => if ltF y acc then y else acc) x)

/-- Model of Python `max(seq)`: `ValueError` on the empty sequence,
otherwise a left fold keeping the accumulator unless the next element is
strictly `>` it. -/
def pyMax : List FVal → Except PyError FVal
  | [] => .error .valueError
  | x :: xs => .ok (xs.foldl (fun acc y => if ltF acc y then y else acc) x)

/-- One validation issue.  Each constructor models one f-string of
`validate_embedding`, carrying the interpolated values:
* `dim got` is `"Expected 1024 dimensions, got {got}"`;
* `nanAt i` is `"NaN value at index {i}"`;
* `infAt i` is `"Infinite value at index {i}"`;
* `norm s` is `"Norm is {√s:.6}, expected ~1.0 (normalized)"` (the norm is
  carried by its radicand `s`, see `calculate_norm`);
* `range mn mx` is `"Values out of reasonable range: [{mn:.6}, {mx:.6}]"`;
* `allZero` is `"All values are zero (or very close to zero)"`.
The 6-significant-digit formatting is presentation only; the payload keeps
the exact values. -/
inductive Issue
  | dim (got : Nat)
  | nanAt (i : Nat)
  | infAt (i : Nat)
  | norm (radicand : FVal)
  | range (minVal maxVal : FVal)
  | allZero
deriving DecidableEq

/-- The NaN/Infinity scan of `validate_embedding`
(`for i, val in enumerate(embedding): ...`), with `k` the index of the
first element of the remaining list.  For each element it appends the NaN
issue and then the Infinity issue, exactly in source order. -/
def finCheckFrom (k : Nat) : List FVal → List Issue
  | [] => []
  | v :: vs =>
      ((if v.isnan then [Issue.nanAt k] else []) ++
        (if v.isinf then [Issue.infAt k] else [])) ++ finCheckFrom (k + 1) vs

/-- Model of `validate_embedding(embedding)`.  The five checks run in
source order, each contributing a (possibly empty) segment of the issue
list; the verdict is `len(issues) == 0`.  `calculate_norm` (a `math.sqrt`
call), `min` and `max` can raise, in that evaluation order. -/
def validate_embedding (embedding : List FVal) : Except PyError (Bool × List Issue) := do
  let dimIssues := if embedding.length ≠ 1024 then [Issue.dim embedding.length] else []
  let finIssues := finCheckFrom 0 embedding
  let normRad ← calculate_norm embedding
  let normIssues := if sqrtLt normRad (9/10) || sqrtGt normRad (11/10) then
    [Issue.norm normRad] else []
  let minVal ← pyMin embedding
  let maxVal ← pyMax embedding
  let rangeIssues := if ltF minVal (.fin (-10)) || ltF (.fin 10) maxVal then
    [Issue.range minVal maxVal] else []
  let zeroIssues := if embedding.all (fun x => ltF (absF x) (.fin (1/1000000))) then
    [Issue.allZero] else []
  let issues := dimIssues ++ finIssues ++ normIssues ++ rangeIssues ++ zeroIssues
  return (issues.length == 0, issues)

/-- The contribution `(char_val / 255.0) * 0.1` of one character with
codepoint `c` in `generate_mock_embedding`, where `char_val = ord(c) % 255`. -/
def contribChar (c : Nat) : ℚ :=
  ((c % 255 : ℕ) : ℚ) / 255 * (1/10)

/-- Model of `v[idx] += δ` on a Python list: `IndexError` when `idx` is
out of range. -/
def updAt (v : List ℚ) (idx : Nat) (δ : ℚ) : Except PyError (List ℚ) :=
  if h : idx < v.length then .ok (v.set idx (v.get ⟨idx, h⟩ + δ)) else .error .indexError

/-- The first loop of `generate_mock_embedding`
(`for i, c in enumerate(text): embedding[i % dimensions] += ...`), taking
the already-enumerated list of (position, codepoint) pairs.  Evaluating
`i % dimensions` with `dimensions = 0` raises `ZeroDivisionError`. -/
def charLoop (d : Nat) : List (Nat × Nat) → List ℚ → Except PyError (List ℚ)
  | [], v => .ok v
  | (i, c) :: rest, v =>
      if d = 0 then .error .zeroDivisionError
      else do
        let v' ← updAt v (i % d) (contribChar c)
        charLoop d rest v'

/-- The second loop of `generate_mock_embedding`
(`for i in range(dimensions): embedding[i] += ((i + text_hash) % 100) / 1000.0`),
taking the remaining list of indices. -/
def hashLoopGo (h : Nat) : List Nat → List ℚ → Except PyError (List ℚ)
  | [], v => .ok v
  | i :: rest, v => do
      let v' ← updAt v i ((((i + h) % 100 : ℕ) : ℚ) / 1000)
      hashLoopGo h rest v'

/-- The intermediate vector of `generate_mock_embedding` just before
normalization: zeros, then the character loop, then the hash loop with
`text_hash = sum(ord(c) for c in text)`. -/
def mockPre (text : List Nat) (dimensions : Nat) : Except PyError (List ℚ) := do
  let v1 ← charLoop dimensions text.enum (List.replicate dimensions 0)
  hashLoopGo text.sum (List.range dimensions) v1

/-- `sum(x * x for x in v)` for a list of finite floats (the generator
only ever holds finite values): `calculate_norm` specialised to finite
input.  The lemma `sumSq_map_fin` connects it to the `FVal` version. -/
def sumSqQ (v : List ℚ) : ℚ :=
  v.foldl (fun acc x => acc + x * x) 0

/-- `sum(x * x for x in v)` over real numbers, used to state unit-norm
facts about the generator output. -/
def sumSqR (v : List ℝ) : ℝ :=
  v.foldl (fun acc x => acc + x * x) 0

/-- The final step of `generate_mock_embedding`: compute
`norm = calculate_norm(embedding)` and divide by it when `norm > 0.0`.
Since the radicand `s = sumSqQ v` is nonnegative, `√s > 0` iff `s > 0`
(lemma `sqrt_radicand_pos`), which is the branch condition used here. -/
noncomputable def normalizeStep (v : List ℚ) : List ℝ :=
  if 0 < sumSqQ v then v.map (fun x => (Rat.cast x : ℝ) / Real.sqrt ((sumSqQ v : ℚ) : ℝ))
  else v.map (fun x => (Rat.cast x : ℝ))

/-- Model of `generate_mock_embedding(text, dimensions)` with `text` a
list of codepoints and `dimensions` a natural number. -/
noncomputable def generate_mock_embedding (text : List Nat) (dimensions : Nat) :
    Except PyError (List ℝ) := do
  let v ← mockPre text dimensions
  return normalizeStep v

/-- Reference definition of the generator, following the specification
text: entry `j` of the intermediate vector is the accumulated character
contribution of all positions `i ≡ j (mod dimensions)` plus the hash term
`((j + textHash) % 100) / 1000`, and the result is unit-normalized when
the L2 norm is positive, unchanged otherwise. -/
noncomputable def mockSpec (text : List Nat) (dimensions : Nat) : List ℝ :=
  let pre := (List.range dimensions).map (fun j =>
    ((text.enum.filter (fun p => p.1 % dimensions = j)).map
      (fun p => contribChar p.2)).sum +
    (((j + text.sum) % 100 : ℕ) : ℚ) / 1000)
  let n : ℝ := Real.sqrt ((pre.map (fun x => (Rat.cast x : ℝ))).foldl (fun acc x => acc + x * x) 0)
  if 0 < n then pre.map (fun x => (Rat.cast x : ℝ) / n) else pre.map (fun x => (Rat.cast x : ℝ))

/-! ### Basic facts about the float model -/

/-- The radicand of a norm computation is never a negative finite value
and never -∞ (it is NaN, +∞, or a nonnegative rational). -/
def NonnegRad : FVal → Prop
  | .nan => True
  | .inf b => b = true
  | .fin q => 0 ≤ q

theorem addF_nonnegRad {a b : FVal} (ha : NonnegRad a) (hb : NonnegRad b) :
    NonnegRad (addF a b) := by
  cases a <;> cases b <;> simp_all [NonnegRad, addF]
  positivity

theorem mulSelf_nonnegRad (x : FVal) : NonnegRad (mulSelf x) := by
  cases x <;> simp [NonnegRad, mulSelf, mul_self_nonneg]

theorem addF_nan_right (a : FVal) : addF a .nan = .nan := by
  cases a <;> rfl

theorem sumSq_nonnegRad (l : List FVal) : NonnegRad (sumSq l) := by
  have aux : ∀ (l : List FVal) (acc : FVal), NonnegRad acc →
      NonnegRad (l.foldl (fun acc x => addF acc (mulSelf x)) acc) := by
    intro l
    induction l with
    | nil => intro acc h; exact h
    | cons x xs ih =>
        intro acc h
        exact ih _ (addF_nonnegRad h (mulSelf_nonnegRad x))
  exact aux l (.fin 0) (by simp [NonnegRad])

/-- The `math.sqrt` call inside `calculate_norm` never raises: the
radicand is a sum of squares. -/
theorem calculate_norm_ok (l : List FVal) : calculate_norm l = .ok (sumSq l) := by
  have h := sumSq_nonnegRad l
  unfold calculate_norm
  cases hs : sumSq l with
  | nan => rfl
  | inf b => rw [hs] at h; simp [NonnegRad] at h; subst h; rfl
  | fin q => rw [hs] at h; simp [NonnegRad] at h; simp [not_lt.2 h]

/-- Any NaN element makes the whole sum of squares NaN. -/
theorem sumSq_nan {l : List FVal} (h : ∃ x ∈ l, x.isnan = true) : sumSq l = .nan := by
  have aux : ∀ (l : List FVal) (acc : FVal), (∃ x ∈ l, x.isnan = true) →
      l.foldl (fun acc x => addF acc (mulSelf x)) acc = .nan := by
    intro l
    induction l with
    | nil => intro acc h; simp at h
    | cons x xs ih =>
        intro acc h
        rcases h with ⟨y, hy, hnan⟩
        rcases List.mem_cons.1 hy with rfl | hmem
        · cases y <;> simp [FVal.isnan] at hnan
          have hnanfold : ∀ (l : List FVal),
              l.foldl (fun acc x => addF acc (mulSelf x)) FVal.nan = .nan := by
            intro l
            induction l with
            | nil => rfl
            | cons z zs ihz => simpa [addF] using ihz
          simpa [List.foldl_cons, mulSelf, addF_nan_right] using hnanfold xs
        · exact ih _ ⟨y, hmem, hnan⟩
  exact aux l _ h

/-! ### Unfolding `validate_embedding` on a nonempty vector -/

/-- The fold computing Python `min(x :: xs)`. -/
def pyMinVal (x : FVal) (xs : List FVal) : FVal :=
  xs.foldl (fun acc y => if ltF y acc then y else acc) x

/-- The fold computing Python `max(x :: xs)`. -/
def pyMaxVal (x : FVal) (xs : List FVal) : FVal :=
  xs.foldl (fun acc y => if ltF acc y then y else acc) x

/-- The full issue list `validate_embedding` accumulates on the nonempty
vector `x :: xs`: the five checks contribute five concatenated segments. -/
def issuesOf (x : FVal) (xs : List FVal) : List Issue :=
  (if (x :: xs).length ≠ 1024 then [Issue.dim (x :: xs).length] else []) ++
  finCheckFrom 0 (x :: xs) ++
  (if sqrtLt (sumSq (x :: xs)) (9/10) || sqrtGt (sumSq (x :: xs)) (11/10) then
    [Issue.norm (sumSq (x :: xs))] else []) ++
  (if ltF (pyMinVal x xs) (.fin (-10)) || ltF (.fin 10) (pyMaxVal x xs) then
    [Issue.range (pyMinVal x xs) (pyMaxVal x xs)] else []) ++
  (if (x :: xs).all (fun v => ltF (absF v) (.fin (1/1000000))) then
    [Issue.allZero] else [])

theorem validate_cons (x : FVal) (xs : List FVal) :
    validate_embedding (x :: xs) =
      .ok (((issuesOf x xs).length == 0), issuesOf x xs) := by
  have hbind : ∀ (α β : Type) (a : α) (f : α → Except PyError β),
      (Except.ok a >>= f) = f a := fun _ _ _ _ => rfl
  unfold validate_embedding
  rw [calculate_norm_ok, hbind]
  show (pyMin (x :: xs) >>= _) = _
  rw [show pyMin (x :: xs) = .ok (pyMinVal x xs) from rfl, hbind]
  show (pyMax (x :: xs) >>= _) = _
  rw [show pyMax (x :: xs) = .ok (pyMaxVal x xs) from rfl, hbind]
  simp [issuesOf, List.append_assoc, pure, Except.pure]

/-! ### The squared-threshold encoding agrees with `Real.sqrt` -/

/-- For a nonnegative finite radicand `q` and a positive threshold `c`,
the encoded test `sqrtLt` decides exactly `√q < c`. -/
theorem sqrtLt_eq_real (q c : ℚ) (hc : 0 < c) :
    sqrtLt (.fin q) c = decide (Real.sqrt ((q : ℚ) : ℝ) < ((c : ℚ) : ℝ)) := by
  simp only [sqrtLt]
  rw [decide_eq_decide]
  rw [Real.sqrt_lt' (by exact_mod_cast hc), sq]
  constructor
  · intro h; exact_mod_cast h
  · intro h; exact_mod_cast h

/-- For a finite radicand `q` and a nonnegative threshold `c`, the
encoded test `sqrtGt` decides exactly `√q > c`. -/
theorem sqrtGt_eq_real (q c : ℚ) (hc : 0 ≤ c) :
    sqrtGt (.fin q) c = decide (((c : ℚ) : ℝ) < Real.sqrt ((q : ℚ) : ℝ)) := by
  simp only [sqrtGt]
  rw [decide_eq_decide]
  rw [Real.lt_sqrt (by exact_mod_cast hc), sq]
  constructor
  · intro h; exact_mod_cast h
  · intro h; exact_mod_cast h

/-! ### Which segment can contain which issue -/

theorem mem_finCheckFrom {y : Issue} {k : Nat} {l : List FVal}
    (h : y ∈ finCheckFrom k l) : (∃ i, y = .nanAt i) ∨ ∃ i, y = .infAt i := by
  induction l generalizing k with
  | nil => simp [finCheckFrom] at h
  | cons v vs ih =>
      simp only [finCheckFrom, List.mem_append] at h
      rcases h with (h | h) | h
      · left; exact ⟨k, by revert h; split <;> simp⟩
      · right; exact ⟨k, by revert h; split <;> simp⟩
      · exact ih h

/-- Member-shape description of the full issue list: every member comes
from the check whose constructor it carries. -/
theorem mem_issuesOf {y : Issue} {x : FVal} {xs : List FVal} :
    y ∈ issuesOf x xs ↔
      (y = .dim (xs.length + 1) ∧ (x :: xs).length ≠ 1024) ∨
      y ∈ finCheckFrom 0 (x :: xs) ∨
      (y = .norm (sumSq (x :: xs)) ∧
        (sqrtLt (sumSq (x :: xs)) (9/10) || sqrtGt (sumSq (x :: xs)) (11/10)) = true) ∨
      (y = .range (pyMinVal x xs) (pyMaxVal x xs) ∧
        (ltF (pyMinVal x xs) (.fin (-10)) || ltF (.fin 10) (pyMaxVal x xs)) = true) ∨
      (y = .allZero ∧ (x :: xs).all (fun v => ltF (absF v) (.fin (1/1000000))) = true) := by
  simp only [issuesOf, List.mem_append]
  constructor
  · intro h
    rcases h with (((h | h) | h) | h) | h
    · left
      revert h; split <;> simp_all
    · right; left; exact h
    · right; right; left
      revert h; split <;> simp_all
    · right; right; right; left
      revert h; split <;> simp_all
    · right; right; right; right
      revert h; split <;> simp_all
  · intro h
    rcases h with ⟨rfl, h⟩ | h | ⟨rfl, h⟩ | ⟨rfl, h⟩ | ⟨rfl, h⟩
    · left; left; left; left; simp_all
    · left; left; left; right; exact h
    · left; left; right; simp_all
    · left; right; simp_all
    · right; simp_all

/-! ### Counting the NaN / Infinity issues -/

theorem count_nan_finCheckFrom_out {i k : Nat} (l : List FVal) (h : i < k) :
    (finCheckFrom k l).count (.nanAt i) = 0 := by
  induction l generalizing k with
  | nil => simp [finCheckFrom]
  | cons v vs ih =>
      simp only [finCheckFrom, List.count_append]
      have h1 : (if v.isnan then [Issue.nanAt k] else []).count (Issue.nanAt i) = 0 := by
        split <;> simp [List.count_singleton, Nat.ne_of_gt h]
      have h2 : (if v.isinf then [Issue.infAt k] else []).count (Issue.nanAt i) = 0 := by
        split <;> simp [List.count_singleton]
      rw [h1, h2, ih (Nat.lt_succ_of_lt h)]

theorem count_inf_finCheckFrom_out {i k : Nat} (l : List FVal) (h : i < k) :
    (finCheckFrom k l).count (.infAt i) = 0 := by
  induction l generalizing k with
  | nil => simp [finCheckFrom]
  | cons v vs ih =>
      simp only [finCheckFrom, List.count_append]
      have h1 : (if v.isnan then [Issue.nanAt k] else []).count (Issue.infAt i) = 0 := by
        split <;> simp [List.count_singleton]
      have h2 : (if v.isinf then [Issue.infAt k] else []).count (Issue.infAt i) = 0 := by
        split <;> simp [List.count_singleton, Nat.ne_of_gt h]
      rw [h1, h2, ih (Nat.lt_succ_of_lt h)]

/-- The NaN scan emits `nanAt (k + j)` exactly once when element `j` of the
remaining list is NaN, never otherwise. -/
theorem count_nan_finCheckFrom (l : List FVal) (k j : Nat) (hj : j < l.length) :
    (finCheckFrom k l).count (.nanAt (k + j)) =
      if (l.get ⟨j, hj⟩).isnan then 1 else 0 := by
  induction l generalizing k j with
  | nil => simp at hj
  | cons v vs ih =>
      cases j with
      | zero =>
          simp only [finCheckFrom, List.count_append, Nat.add_zero, List.get]
          have h2 : (if v.isinf then [Issue.infAt k] else []).count (Issue.nanAt k) = 0 := by
            split <;> simp [List.count_singleton]
          have h3 : (finCheckFrom (k+1) vs).count (.nanAt k) = 0 :=
            count_nan_finCheckFrom_out vs (Nat.lt_succ_self k)
          rw [h2, h3]
          split <;> simp_all [List.count_singleton]
      | succ j' =>
          simp only [finCheckFrom, List.count_append, List.get]
          have h1 : (if v.isnan then [Issue.nanAt k] else []).count
              (Issue.nanAt (k + (j' + 1))) = 0 := by
            split <;> simp [List.count_singleton]
          have h2 : (if v.isinf then [Issue.infAt k] else []).count
              (Issue.nanAt (k + (j' + 1))) = 0 := by
            split <;> simp [List.count_singleton]
          rw [h1, h2, show k + (j' + 1) = (k + 1) + j' by omega,
            ih (k + 1) j' (by simpa using hj)]
          simp

theorem count_inf_finCheckFrom (l : List FVal) (k j : Nat) (hj : j < l.length) :
    (finCheckFrom k l).count (.infAt (k + j)) =
      if (l.get ⟨j, hj⟩).isinf then 1 else 0 := by
  induction l generalizing k j with
  | nil => simp at hj
  | cons v vs ih =>
      cases j with
      | zero =>
          simp only [finCheckFrom, List.count_append, Nat.add_zero, List.get]
          have h1 : (if v.isnan then [Issue.nanAt k] else []).count (Issue.infAt k) = 0 := by
            split <;> simp [List.count_singleton]
          have h3 : (finCheckFrom (k+1) vs).count (.infAt k) = 0 :=
            count_inf_finCheckFrom_out vs (Nat.lt_succ_self k)
          rw [h1, h3]
          split <;> simp_all [List.count_singleton]
      | succ j' =>
          simp only [finCheckFrom, List.count_append, List.get]
          have h1 : (if v.isnan then [Issue.nanAt k] else []).count
              (Issue.infAt (k + (j' + 1))) = 0 := by
            split <;> simp [List.count_singleton]
          have h2 : (if v.isinf then [Issue.infAt k] else []).count
              (Issue.infAt (k + (j' + 1))) = 0 := by
            split <;> simp [List.count_singleton]
          rw [h1, h2, show k + (j' + 1) = (k + 1) + j' by omega,
            ih (k + 1) j' (by simpa using hj)]
          simp

/-- Only the NaN/Infinity scan contributes `nanAt` issues. -/
theorem count_nan_issuesOf (x : FVal) (xs : List FVal) (i : Nat)
    (hi : i < (x :: xs).length) :
    (issuesOf x xs).count (.nanAt i) =
      if ((x :: xs).get ⟨i, hi⟩).isnan then 1 else 0 := by
  simp only [issuesOf, List.count_append]
  have h1 : (if (x :: xs).length ≠ 1024 then [Issue.dim (x :: xs).length] else []).count
      (Issue.nanAt i) = 0 := by split <;> simp [List.count_singleton]
  have h3 : ∀ (c : Bool) (s : FVal), (if c = true then [Issue.norm s] else []).count
      (Issue.nanAt i) = 0 := by intro c s; split <;> simp [List.count_singleton]
  have h4 : ∀ (c : Bool) (a b : FVal), (if c = true then [Issue.range a b] else []).count
      (Issue.nanAt i) = 0 := by intro c a b; split <;> simp [List.count_singleton]
  have h5 : ∀ (c : Bool), (if c = true then [Issue.allZero] else []).count
      (Issue.nanAt i) = 0 := by intro c; split <;> simp [List.count_singleton]
  rw [List.length_cons] at h1
  simp only [List.length_cons, h1, h3, h4, h5]
  have := count_nan_finCheckFrom (x :: xs) 0 i (by simpa using hi)
  rw [Nat.zero_add] at this
  rw [this]
  simp

theorem count_inf_issuesOf (x : FVal) (xs : List FVal) (i : Nat)
    (hi : i < (x :: xs).length) :
    (issuesOf x xs).count (.infAt i) =
      if ((x :: xs).get ⟨i, hi⟩).isinf then 1 else 0 := by
  simp only [issuesOf, List.count_append]
  have h1 : (if (x :: xs).length ≠ 1024 then [Issue.dim (x :: xs).length] else []).count
      (Issue.infAt i) = 0 := by split <;> simp [List.count_singleton]
  have h3 : ∀ (c : Bool) (s : FVal), (if c = true then [Issue.norm s] else []).count
      (Issue.infAt i) = 0 := by intro c s; split <;> simp [List.count_singleton]
  have h4 : ∀ (c : Bool) (a b : FVal), (if c = true then [Issue.range a b] else []).count
      (Issue.infAt i) = 0 := by intro c a b; split <;> simp [List.count_singleton]
  have h5 : ∀ (c : Bool), (if c = true then [Issue.allZero] else []).count
      (Issue.infAt i) = 0 := by intro c; split <;> simp [List.count_singleton]
  rw [List.length_cons] at h1
  simp only [List.length_cons, h1, h3, h4, h5]
  have := count_inf_finCheckFrom (x :: xs) 0 i (by simpa using hi)
  rw [Nat.zero_add] at this
  rw [this]
  simp

/-! ### Order facts about `ltF` and the `min` / `max` folds -/

theorem ltF_trans {a b c : FVal} (h1 : ltF a b = true) (h2 : ltF b c = true) :
    ltF a c = true := by
  rcases a with _ | sa | qa <;> rcases b with _ | sb | qb <;> rcases c with _ | sc | qc <;>
    first
      | (cases sa <;> cases sb <;> cases sc <;> simp_all [ltF])
      | (cases sa <;> cases sb <;> simp_all [ltF])
      | (cases sa <;> cases sc <;> simp_all [ltF])
      | (cases sb <;> cases sc <;> simp_all [ltF])
      | (cases sa <;> simp_all [ltF])
      | (cases sb <;> simp_all [ltF])
      | (cases sc <;> simp_all [ltF])
      | (simp_all [ltF]; linarith)
      | simp_all [ltF]

/-- For non-NaN `a`, `b`: if `b` is not below `a` (so `a ≤ b`) and `b` is
below `c`, then `a` is below `c`. -/
theorem ltF_of_nlt_of_lt {a b c : FVal} (ha : a.isnan = false) (hb : b.isnan = false)
    (h1 : ltF b a = false) (h2 : ltF b c = true) : ltF a c = true := by
  rcases a with _ | sa | qa <;> rcases b with _ | sb | qb <;> rcases c with _ | sc | qc <;>
    simp_all [FVal.isnan] <;>
    first
      | (cases sa <;> cases sb <;> cases sc <;> simp_all [ltF])
      | (cases sa <;> cases sb <;> simp_all [ltF])
      | (cases sa <;> cases sc <;> simp_all [ltF])
      | (cases sb <;> cases sc <;> simp_all [ltF])
      | (cases sa <;> simp_all [ltF])
      | (cases sb <;> simp_all [ltF])
      | (cases sc <;> simp_all [ltF])
      | (simp_all [ltF]; linarith)
      | simp_all [ltF]

/-- For non-NaN `x`, `y`: if `x` is not below `y` (so `y ≤ x`) and `c` is
below `y`, then `c` is below `x`. -/
theorem ltF_of_lt_of_nlt {x y c : FVal} (hx : x.isnan = false) (hy : y.isnan = false)
    (h1 : ltF x y = false) (h2 : ltF c y = true) : ltF c x = true := by
  rcases x with _ | sx | qx <;> rcases y with _ | sy | qy <;> rcases c with _ | sc | qc <;>
    simp_all [FVal.isnan] <;>
    first
      | (cases sx <;> cases sy <;> cases sc <;> simp_all [ltF])
      | (cases sx <;> cases sy <;> simp_all [ltF])
      | (cases sx <;> cases sc <;> simp_all [ltF])
      | (cases sy <;> cases sc <;> simp_all [ltF])
      | (cases sx <;> simp_all [ltF])
      | (cases sy <;> simp_all [ltF])
      | (cases sc <;> simp_all [ltF])
      | (simp_all [ltF]; linarith)
      | simp_all [ltF]

/-- A fold whose step always returns one of its two arguments preserves
any property shared by the start value and all list elements. -/
theorem foldl_pick {P : FVal → Prop} (f : FVal → FVal → FVal)
    (hf : ∀ a b, f a b = a ∨ f a b = b) :
    ∀ (xs : List FVal) (x : FVal), P x → (∀ y ∈ xs, P y) → P (xs.foldl f x) := by
  intro xs
  induction xs with
  | nil => intro x hx _; exact hx
  | cons y ys ih =>
      intro x hx hall
      simp only [List.foldl_cons]
      have hstep : P (f x y) := by
        rcases hf x y with h | h
        · rw [h]; exact hx
        · rw [h]; exact hall y (List.mem_cons_self y ys)
      exact ih (f x y) hstep (fun z hz => hall z (List.mem_cons_of_mem y hz))

/-- If some element of the nonempty list `x :: xs` is below `c` and no
element is NaN, then `min(x :: xs)` is below `c`. -/
theorem pyMinVal_lt {c : FVal} :
    ∀ (xs : List FVal) (x : FVal), x.isnan = false → (∀ y ∈ xs, y.isnan = false) →
      (ltF x c = true ∨ ∃ y ∈ xs, ltF y c = true) → ltF (pyMinVal x xs) c = true := by
  intro xs
  induction xs with
  | nil =>
      intro x _ _ h
      rcases h with h | ⟨y, hy, _⟩
      · exact h
      · simp at hy
  | cons y ys ih =>
      intro x hx hall h
      have hy : y.isnan = false := hall y (List.mem_cons_self y ys)
      have hys : ∀ z ∈ ys, z.isnan = false :=
        fun z hz => hall z (List.mem_cons_of_mem y hz)
      have hacc : (if ltF y x then y else x).isnan = false := by
        split <;> assumption
      rw [pyMinVal, List.foldl_cons]
      show ltF (pyMinVal (if ltF y x then y else x) ys) c = true
      apply ih _ hacc hys
      rcases h with h | ⟨z, hz, hzc⟩
      · left
        split
        · next hlt => exact ltF_trans hlt h
        · exact h
      · rcases List.mem_cons.1 hz with rfl | hmem
        · left
          split
          · exact hzc
          · next hnlt =>
              exact ltF_of_nlt_of_lt hx hy (Bool.not_eq_true _ ▸ hnlt) hzc
        · right; exact ⟨z, hmem, hzc⟩

/-- If some element of the nonempty list `x :: xs` is above `c` and no
element is NaN, then `max(x :: xs)` is above `c`. -/
theorem pyMaxVal_gt {c : FVal} :
    ∀ (xs : List FVal) (x : FVal), x.isnan = false → (∀ y ∈ xs, y.isnan = false) →
      (ltF c x = true ∨ ∃ y ∈ xs, ltF c y = true) → ltF c (pyMaxVal x xs) = true := by
  intro xs
  induction xs with
  | nil =>
      intro x _ _ h
      rcases h with h | ⟨y, hy, _⟩
      · exact h
      · simp at hy
  | cons y ys ih =>
      intro x hx hall h
      have hy : y.isnan = false := hall y (List.mem_cons_self y ys)
      have hys : ∀ z ∈ ys, z.isnan = false :=
        fun z hz => hall z (List.mem_cons_of_mem y hz)
      have hacc : (if ltF x y then y else x).isnan = false := by
        split <;> assumption
      rw [pyMaxVal, List.foldl_cons]
      show ltF c (pyMaxVal (if ltF x y then y else x) ys) = true
      apply ih _ hacc hys
      rcases h with h | ⟨z, hz, hzc⟩
      · left
        split
        · next hlt => exact ltF_trans h hlt
        · exact h
      · rcases List.mem_cons.1 hz with rfl | hmem
        · left
          split
          · exact hzc
          · next hnlt =>
              exact ltF_of_lt_of_nlt hx hy (Bool.not_eq_true _ ▸ hnlt) hzc
        · right; exact ⟨z, hmem, hzc⟩

/-! ### Pointwise characterisation of the generator loops -/

/-- Total indexing of the generator vector (`0` outside the range). -/
def vecAt (v : List ℚ) (j : Nat) : ℚ := v.getD j 0

theorem vecAt_eq_get {v : List ℚ} {i : Nat} (hi : i < v.length) :
    vecAt v i = v.get ⟨i, hi⟩ := by
  simp [vecAt, List.getD_eq_getElem?_getD, List.getElem?_eq_getElem hi]

theorem vecAt_set {v : List ℚ} {i : Nat} (j : Nat) (a : ℚ) (hi : i < v.length) :
    vecAt (v.set i a) j = if i = j then a else vecAt v j := by
  simp only [vecAt, List.getD_eq_getElem?_getD, List.getElem?_set]
  by_cases h : i = j
  · subst h; simp [hi]
  · simp [h]

theorem vecAt_replicate_zero (d j : Nat) : vecAt (List.replicate d (0 : ℚ)) j = 0 := by
  simp only [vecAt, List.getD_eq_getElem?_getD]
  by_cases h : j < d
  · rw [List.getElem?_eq_getElem (by simpa using h)]
    simp
  · rw [List.getElem?_eq_none (by simpa using Nat.le_of_not_lt h)]
    rfl

/-- The character loop succeeds whenever `dimensions ≠ 0`, keeps the
length, and adds to entry `j` the contributions of exactly those
(position, codepoint) pairs whose position is `≡ j (mod d)`. -/
theorem charLoop_ok {d : Nat} (hd : d ≠ 0) :
    ∀ (ps : List (Nat × Nat)) (v : List ℚ), v.length = d →
      ∃ w, charLoop d ps v = .ok w ∧ w.length = d ∧
        ∀ j, vecAt w j = vecAt v j +
          ((ps.filter (fun p => p.1 % d = j)).map (fun p => contribChar p.2)).sum := by
  intro ps
  induction ps with
  | nil =>
      intro v hv
      exact ⟨v, rfl, hv, fun j => by simp⟩
  | cons p ps ih =>
      intro v hv
      obtain ⟨i, c⟩ := p
      have hidx : i % d < v.length := by
        rw [hv]; exact Nat.mod_lt i (Nat.pos_of_ne_zero hd)
      have hupd : updAt v (i % d) (contribChar c) =
          .ok (v.set (i % d) (v.get ⟨i % d, hidx⟩ + contribChar c)) := by
        simp [updAt, hidx]
      obtain ⟨w, hw, hwlen, hwat⟩ :=
        ih (v.set (i % d) (v.get ⟨i % d, hidx⟩ + contribChar c)) (by simpa using hv)
      refine ⟨w, ?_, hwlen, ?_⟩
      · simp only [charLoop, hd, if_false, hupd]
        exact hw
      · intro j
        rw [hwat j, vecAt_set j _ hidx, ← vecAt_eq_get hidx, List.filter_cons]
        by_cases hij : i % d = j
        · simp [hij]
          ring
        · simp [hij]

/-- The hash loop succeeds whenever every remaining index is in range,
keeps the length, and adds to entry `j` the hash terms of exactly the
occurrences of `j` in the index list. -/
theorem hashLoopGo_ok (h : Nat) :
    ∀ (idxs : List Nat) (v : List ℚ), (∀ i ∈ idxs, i < v.length) →
      ∃ w, hashLoopGo h idxs v = .ok w ∧ w.length = v.length ∧
        ∀ j, vecAt w j = vecAt v j +
          ((idxs.filter (fun i => i = j)).map
            (fun i => (((i + h) % 100 : ℕ) : ℚ) / 1000)).sum := by
  intro idxs
  induction idxs with
  | nil =>
      intro v _
      exact ⟨v, rfl, rfl, fun j => by simp⟩
  | cons i idxs ih =>
      intro v hv
      have hidx : i < v.length := hv i (List.mem_cons_self i idxs)
      have hupd : updAt v i ((((i + h) % 100 : ℕ) : ℚ) / 1000) =
          .ok (v.set i (v.get ⟨i, hidx⟩ + (((i + h) % 100 : ℕ) : ℚ) / 1000)) := by
        simp [updAt, hidx]
      obtain ⟨w, hw, hwlen, hwat⟩ :=
        ih (v.set i (v.get ⟨i, hidx⟩ + (((i + h) % 100 : ℕ) : ℚ) / 1000))
          (by simpa using fun z hz => hv z (List.mem_cons_of_mem i hz))
      refine ⟨w, ?_, by simpa using hwlen, ?_⟩
      · simp only [hashLoopGo, hupd]
        exact hw
      · intro j
        rw [hwat j, vecAt_set j _ hidx, ← vecAt_eq_get hidx, List.filter_cons]
        by_cases hij : i = j
        · simp [hij]
          ring
        · simp [hij]

theorem filter_range_eq (d j : Nat) :
    (List.range d).filter (fun i => i = j) = if j < d then [j] else [] := by
  induction d with
  | zero => simp
  | succ d ih =>
      rw [List.range_succ, List.filter_append, ih]
      by_cases h1 : j < d
      · have hne : ¬(d = j) := by omega
        simp [h1, Nat.lt_succ_of_lt h1, hne]
      · by_cases h2 : j = d
        · subst h2
          simp [h1, Nat.lt_succ_self]
        · have hne : ¬(d = j) := fun hc => h2 hc.symm
          have h3 : ¬(j < d + 1) := by omega
          simp [h1, h3, hne]

/-- The intermediate vector of the generator, pointwise: entry `j` is the
accumulated character contribution plus the hash term. -/
theorem mockPre_ok (text : List Nat) {d : Nat} (hd : 1 ≤ d) :
    ∃ w, mockPre text d = .ok w ∧ w.length = d ∧
      ∀ j, vecAt w j =
        ((text.enum.filter (fun p => p.1 % d = j)).map (fun p => contribChar p.2)).sum +
        (if j < d then (((j + text.sum) % 100 : ℕ) : ℚ) / 1000 else 0) := by
  have hd0 : d ≠ 0 := by omega
  obtain ⟨v1, hv1, hv1len, hv1at⟩ :=
    charLoop_ok hd0 text.enum (List.replicate d 0) (by simp)
  obtain ⟨w, hw, hwlen, hwat⟩ :=
    hashLoopGo_ok text.sum (List.range d) v1
      (fun i hi => by rw [hv1len]; exact List.mem_range.1 hi)
  refine ⟨w, ?_, by rw [hwlen, hv1len], ?_⟩
  · simp only [mockPre, hv1]
    show hashLoopGo text.sum (List.range d) v1 = .ok w
    exact hw
  · intro j
    rw [hwat j, hv1at j, vecAt_replicate_zero, zero_add, filter_range_eq]
    by_cases hj : j < d
    · simp [hj]
    · simp [hj]

/-! ### Sums of squares of the generator vector -/

theorem foldl_addsq_q (l : List ℚ) (a : ℚ) :
    l.foldl (fun acc x => acc + x * x) a = a + (l.map (fun x => x * x)).sum := by
  induction l generalizing a with
  | nil => simp
  | cons x xs ih => simp [ih]; ring

theorem foldl_addsq_r (l : List ℝ) (a : ℝ) :
    l.foldl (fun acc x => acc + x * x) a = a + (l.map (fun x => x * x)).sum := by
  induction l generalizing a with
  | nil => simp
  | cons x xs ih => simp [ih]; ring

theorem sumSqQ_eq_sum (l : List ℚ) : sumSqQ l = (l.map (fun x => x * x)).sum := by
  rw [sumSqQ, foldl_addsq_q, zero_add]

theorem sumSqR_eq_sum (l : List ℝ) : sumSqR l = (l.map (fun x => x * x)).sum := by
  rw [sumSqR, foldl_addsq_r, zero_add]

theorem foldl_addsq_cast (l : List ℚ) :
    ∀ a : ℚ, ((l.foldl (fun acc x => acc + x * x) a : ℚ) : ℝ) =
      (l.map (fun x => (Rat.cast x : ℝ))).foldl (fun acc x => acc + x * x) ((a : ℚ) : ℝ) := by
  induction l with
  | nil => intro a; rfl
  | cons x xs ih =>
      intro a
      simp only [List.foldl_cons, List.map_cons]
      rw [ih]
      congr 1
      push_cast
      ring

theorem sumSqQ_cast (l : List ℚ) :
    ((sumSqQ l : ℚ) : ℝ) = sumSqR (l.map (fun x => (Rat.cast x : ℝ))) := by
  have h := foldl_addsq_cast l 0
  rw [Rat.cast_zero] at h
  exact h

theorem sq_mem_nonneg (l : List ℚ) : ∀ x ∈ l.map (fun x => x * x), 0 ≤ x := by
  intro x hx
  obtain ⟨y, hy, rfl⟩ := List.mem_map.1 hx
  exact mul_self_nonneg y

theorem sumSqQ_nonneg (l : List ℚ) : 0 ≤ sumSqQ l := by
  rw [sumSqQ_eq_sum]
  exact List.sum_nonneg (sq_mem_nonneg l)

/-- A nonzero entry forces a positive sum of squares. -/
theorem sumSqQ_pos_of_entry {l : List ℚ} {j : Nat} (hj : j < l.length)
    (h : vecAt l j ≠ 0) : 0 < sumSqQ l := by
  rw [sumSqQ_eq_sum]
  have hmem : vecAt l j * vecAt l j ∈ l.map (fun x => x * x) := by
    rw [vecAt_eq_get hj]
    exact List.mem_map.2 ⟨l.get ⟨j, hj⟩, List.get_mem l j hj, rfl⟩
  have hle : vecAt l j * vecAt l j ≤ (l.map (fun x => x * x)).sum :=
    List.single_le_sum (sq_mem_nonneg l) _ hmem
  have hpos : 0 < vecAt l j * vecAt l j := mul_self_pos.2 h
  linarith

/-- Dividing every entry by a nonzero constant divides the sum of squares
by its square. -/
theorem sumSqR_map_div (l : List ℝ) (c : ℝ) :
    sumSqR (l.map (fun x => x / c)) = sumSqR l / (c * c) := by
  rw [sumSqR_eq_sum, sumSqR_eq_sum, List.map_map]
  induction l with
  | nil => simp
  | cons x xs ih =>
      simp only [List.map_cons, List.sum_cons, Function.comp] at *
      rw [ih]
      by_cases hc : c = 0
      · simp [hc]
      · field_simp

/-! ### The normalization step and the spec-side generator -/

theorem ok_bind {α β : Type} (a : α) (f : α → Except PyError β) :
    (Except.ok a >>= f) = f a := rfl

theorem sqrt_radicand_pos (s : ℚ) : 0 < Real.sqrt ((s : ℚ) : ℝ) ↔ 0 < s := by
  rw [Real.sqrt_pos]
  exact_mod_cast Iff.rfl

/-- The source normalization (branching on `0 < sumSqQ v`, the encoded
form of `norm > 0.0`) coincides with the spec-side normalization
(branching on the positivity of the real square root). -/
theorem normalizeStep_eq_spec_tail (pre : List ℚ) :
    normalizeStep pre =
      (if 0 < Real.sqrt
          ((pre.map (fun x => (Rat.cast x : ℝ))).foldl (fun acc x => acc + x * x) 0)
       then pre.map (fun x => (Rat.cast x : ℝ) / Real.sqrt
          ((pre.map (fun x => (Rat.cast x : ℝ))).foldl (fun acc x => acc + x * x) 0))
       else pre.map (fun x => (Rat.cast x : ℝ))) := by
  have hs : (pre.map (fun x => (Rat.cast x : ℝ))).foldl (fun acc x => acc + x * x) 0 =
      ((sumSqQ pre : ℚ) : ℝ) := (sumSqQ_cast pre).symm
  rw [hs, normalizeStep]
  exact if_congr (sqrt_radicand_pos (sumSqQ pre)).symm rfl rfl

/-- For `dimensions ≥ 1` the intermediate vector is exactly the
spec-side formula `j ↦ charSum j + hashTerm j` on `range dimensions`. -/
theorem mockPre_eq_spec (text : List Nat) {d : Nat} (hd : 1 ≤ d) :
    mockPre text d = .ok ((List.range d).map (fun j =>
      ((text.enum.filter (fun p => p.1 % d = j)).map (fun p => contribChar p.2)).sum +
      (((j + text.sum) % 100 : ℕ) : ℚ) / 1000)) := by
  obtain ⟨w, hw, hwlen, hwat⟩ := mockPre_ok text hd
  rw [hw]
  congr 1
  apply List.ext_get
  · simp [hwlen]
  · intro n h1 h2
    have hn : n < d := by rw [← hwlen]; exact h1
    rw [← vecAt_eq_get h1, hwat n, if_pos hn]
    simp [hn]

theorem contribChar_nonneg (c : Nat) : 0 ≤ contribChar c := by
  unfold contribChar
  positivity

theorem charSum_nonneg (text : List Nat) (d j : Nat) :
    0 ≤ ((text.enum.filter (fun p => p.1 % d = j)).map (fun p => contribChar p.2)).sum := by
  apply List.sum_nonneg
  intro x hx
  obtain ⟨p, _, rfl⟩ := List.mem_map.1 hx
  exact contribChar_nonneg p.2

/-- For `dimensions ≥ 2` the intermediate vector has a strictly positive
entry: the hash terms at indices 0 and 1 are `(h % 100)/1000` and
`((1 + h) % 100)/1000`, which cannot both vanish. -/
theorem mockPre_entry_pos (text : List Nat) {d : Nat} (hd : 2 ≤ d) :
    ∀ w, mockPre text d = .ok w → 0 < sumSqQ w := by
  intro w hw
  obtain ⟨w', hw', hwlen, hwat⟩ := @mockPre_ok text d (by omega)
  rw [hw] at hw'
  injection hw' with hww
  subst hww
  set h := text.sum with hh
  by_cases hr : h % 100 = 0
  · -- the hash term at index 1 is 1/1000
    have h1 : (1 + h) % 100 = 1 := by omega
    have hval : vecAt w 1 =
        ((text.enum.filter (fun p => p.1 % d = 1)).map (fun p => contribChar p.2)).sum +
        (1 : ℚ) / 1000 := by
      rw [hwat 1, if_pos (by omega)]
      norm_num [h1]
    have hpos : 0 < vecAt w 1 := by
      have := charSum_nonneg text d 1
      rw [hval]
      positivity
    exact sumSqQ_pos_of_entry (by omega : 1 < w.length) (by linarith)
  · -- the hash term at index 0 is (h % 100)/1000 > 0
    have hval : vecAt w 0 =
        ((text.enum.filter (fun p => p.1 % d = 0)).map (fun p => contribChar p.2)).sum +
        ((h % 100 : ℕ) : ℚ) / 1000 := by
      rw [hwat 0, if_pos (by omega)]
      norm_num
    have hterm : 0 < ((h % 100 : ℕ) : ℚ) / 1000 := by
      have : 0 < h % 100 := Nat.pos_of_ne_zero hr
      positivity
    have hpos : 0 < vecAt w 0 := by
      have := charSum_nonneg text d 0
      rw [hval]
      linarith
    exact sumSqQ_pos_of_entry (by omega : 0 < w.length) (by linarith)

/-- Dividing the intermediate vector by its (positive) norm yields a
vector of L2 norm exactly 1. -/
theorem normalized_unit_norm {v : List ℚ} (hv : 0 < sumSqQ v) :
    Real.sqrt (sumSqR (v.map (fun x =>
      (Rat.cast x : ℝ) / Real.sqrt ((sumSqQ v : ℚ) : ℝ)))) = 1 := by
  set s : ℚ := sumSqQ v with hs
  have hsR : (0 : ℝ) < (s : ℝ) := by exact_mod_cast hv
  have hc : Real.sqrt ((s : ℚ) : ℝ) ≠ 0 := by
    rw [← Real.sqrt_pos] at hsR
    exact ne_of_gt hsR
  have hmap : v.map (fun x => (Rat.cast x : ℝ) / Real.sqrt ((s : ℚ) : ℝ)) =
      (v.map (fun x => (Rat.cast x : ℝ))).map (fun y => y / Real.sqrt ((s : ℚ) : ℝ)) := by
    rw [List.map_map]
    rfl
  rw [hmap, sumSqR_map_div, ← sumSqQ_cast, ← hs,
    Real.mul_self_sqrt (le_of_lt hsR), div_self (ne_of_gt hsR), Real.sqrt_one]

/-! ### The claims -/

/-- C1, counterexample: the claim quantifies over every sequence of
floats and every integer dimension, but `validate_embedding` of the empty
vector raises `ValueError` (Python `min()` of an empty sequence), and
`generate_mock_embedding` with `dimensions = 0` and a nonempty text raises
`ZeroDivisionError` (`i % 0`). -/
theorem c1_counterexample :
    validate_embedding [] = .error .valueError ∧
    generate_mock_embedding [97] 0 = .error .zeroDivisionError := by
  constructor
  · rfl
  · rfl

/-- C1 (corrected): on every nonempty vector the Validator completes
without raising (NaN and Infinity included), and for every text and every
`dimensions ≥ 1` the Generator completes without raising; no other error
branch is reachable. -/
theorem c1_no_exceptions :
    (∀ l : List FVal, l ≠ [] → ∃ r, validate_embedding l = .ok r) ∧
    (∀ (text : List Nat) (d : Nat), 1 ≤ d →
      ∃ r, generate_mock_embedding text d = .ok r) := by
  constructor
  · intro l hl
    obtain ⟨x, xs, rfl⟩ := List.exists_cons_of_ne_nil hl
    exact ⟨_, validate_cons x xs⟩
  · intro text d hd
    obtain ⟨w, hw, _, _⟩ := mockPre_ok text hd
    refine ⟨normalizeStep w, ?_⟩
    unfold generate_mock_embedding
    rw [hw, ok_bind]
    rfl

theorem c1_witness :
    (([FVal.fin 1] : List FVal) ≠ [] ∧ ∃ r, validate_embedding [FVal.fin 1] = .ok r) ∧
    ((1 : Nat) ≤ 1 ∧ ∃ r, generate_mock_embedding [] 1 = .ok r) :=
  ⟨⟨by simp, c1_no_exceptions.1 [FVal.fin 1] (by simp)⟩,
   ⟨le_refl 1, c1_no_exceptions.2 [] 1 (le_refl 1)⟩⟩

/-- C2 (confirmed): for every text and every `dimensions ≥ 1` the
generator output equals the reference definition `mockSpec` built from
the specification text (accumulated character contributions, hash terms,
unit normalization when the norm is positive). -/
theorem c2_generator_matches_spec (text : List Nat) (d : Nat) (hd : 1 ≤ d) :
    generate_mock_embedding text d = .ok (mockSpec text d) := by
  unfold generate_mock_embedding
  rw [mockPre_eq_spec text hd, ok_bind]
  show Except.ok (normalizeStep _) = _
  rw [normalizeStep_eq_spec_tail]
  simp only [mockSpec]

theorem c2_witness :
    (1 : Nat) ≤ 1024 ∧
    generate_mock_embedding [97] 1024 = .ok (mockSpec [97] 1024) :=
  ⟨by norm_num, c2_generator_matches_spec [97] 1024 (by norm_num)⟩

/-- C3, counterexample: at `text = ""` and `dimensions = 1` the
intermediate vector is `[0]` (the single hash term is `(0 % 100)/1000 = 0`),
its norm is `0`, the norm-is-zero branch IS taken, and the returned vector
`[0.0]` has norm `0`, not `1`. -/
theorem c3_counterexample :
    mockPre [] 1 = .ok [(0 : ℚ)] ∧ sumSqQ [(0 : ℚ)] = 0 ∧
    generate_mock_embedding [] 1 = .ok [(0 : ℝ)] ∧
    Real.sqrt (sumSqR [(0 : ℝ)]) = 0 := by
  have hpre : mockPre [] 1 = .ok [(0 : ℚ)] := by
    show (charLoop 1 [] (List.replicate 1 0) >>= _) = _
    rw [show charLoop 1 [] (List.replicate 1 0) = .ok [(0 : ℚ)] from rfl, ok_bind]
    show hashLoopGo 0 [0] [(0 : ℚ)] = .ok [(0 : ℚ)]
    simp only [hashLoopGo, updAt]
    norm_num
    rfl
  have hs : sumSqQ [(0 : ℚ)] = 0 := by norm_num [sumSqQ]
  refine ⟨hpre, hs, ?_, ?_⟩
  · unfold generate_mock_embedding
    rw [hpre, ok_bind]
    show Except.ok (normalizeStep [(0 : ℚ)]) = _
    rw [normalizeStep, hs]
    norm_num
  · rw [sumSqR_eq_sum]
    norm_num

/-- C3 (corrected): for every text and every `dimensions ≥ 2` the
intermediate vector has strictly positive squared norm (the hash terms at
indices 0 and 1 cannot both vanish), the norm-is-zero branch is not
taken, and the generator returns the intermediate vector divided by its
norm — a vector of L2 norm exactly 1.  For `dimensions = 1` the original
claim fails, as `c3_counterexample` shows. -/
theorem c3_prenorm_positive (text : List Nat) (d : Nat) (hd : 2 ≤ d) :
    ∃ v, mockPre text d = .ok v ∧ 0 < sumSqQ v ∧
      generate_mock_embedding text d =
        .ok (v.map (fun x => (Rat.cast x : ℝ) / Real.sqrt ((sumSqQ v : ℚ) : ℝ))) ∧
      Real.sqrt (sumSqR (v.map (fun x =>
        (Rat.cast x : ℝ) / Real.sqrt ((sumSqQ v : ℚ) : ℝ)))) = 1 := by
  obtain ⟨w, hw, hwlen, hwat⟩ := @mockPre_ok text d (by omega)
  have hpos : 0 < sumSqQ w := mockPre_entry_pos text hd w hw
  refine ⟨w, hw, hpos, ?_, normalized_unit_norm hpos⟩
  unfold generate_mock_embedding
  rw [hw, ok_bind]
  show Except.ok (normalizeStep w) = _
  rw [normalizeStep, if_pos hpos]

theorem c3_witness :
    (2 : Nat) ≤ 2 ∧ ∃ v, mockPre [] 2 = .ok v ∧ 0 < sumSqQ v ∧
      generate_mock_embedding [] 2 =
        .ok (v.map (fun x => (Rat.cast x : ℝ) / Real.sqrt ((sumSqQ v : ℚ) : ℝ))) ∧
      Real.sqrt (sumSqR (v.map (fun x =>
        (Rat.cast x : ℝ) / Real.sqrt ((sumSqQ v : ℚ) : ℝ)))) = 1 :=
  ⟨le_refl 2, c3_prenorm_positive [] 2 (le_refl 2)⟩

/-- C4 (confirmed): the generator is deterministic.  In this model
`generate_mock_embedding` is a pure function of exactly its two arguments
(text and dimensions) — its definition mentions no randomness, time, or
hidden state — so two calls with identical arguments are definitionally
equal, in particular on `"test text"` with dimension 1024. -/
theorem c4_generator_deterministic :
    (∀ (text : List Nat) (d : Nat),
      generate_mock_embedding text d = generate_mock_embedding text d) ∧
    generate_mock_embedding [116, 101, 115, 116, 32, 116, 101, 120, 116] 1024 =
      generate_mock_embedding [116, 101, 115, 116, 32, 116, 101, 120, 116] 1024 :=
  ⟨fun _ _ => rfl, rfl⟩

/-! ### Helpers for the validator claims -/

theorem validate_ok_inj {x : FVal} {xs : List FVal} {b : Bool} {issues : List Issue}
    (h : validate_embedding (x :: xs) = .ok (b, issues)) :
    b = ((issuesOf x xs).length == 0) ∧ issues = issuesOf x xs := by
  rw [validate_cons] at h
  have h2 := Except.ok.inj h
  exact ⟨(congrArg Prod.fst h2).symm, (congrArg Prod.snd h2).symm⟩

/-- As soon as one issue exists, the verdict is `False`. -/
theorem verdict_false_of_mem {x : FVal} {xs : List FVal} {y : Issue}
    (h : y ∈ issuesOf x xs) :
    validate_embedding (x :: xs) = .ok (false, issuesOf x xs) := by
  rw [validate_cons]
  have hne : issuesOf x xs ≠ [] := List.ne_nil_of_mem h
  have hlen : (issuesOf x xs).length ≠ 0 := by
    simpa [List.length_eq_zero] using hne
  simp [hlen]

/-- C5, counterexample: the empty vector has length `0 ≠ 1024`, yet
`validate_embedding` does not return an invalid verdict for it — it
raises `ValueError` when `min()` reaches the empty sequence. -/
theorem c5_counterexample :
    ([] : List FVal).length ≠ 1024 ∧
    validate_embedding [] = .error .valueError :=
  ⟨by norm_num, rfl⟩

/-- C5 (corrected): for every NONEMPTY vector whose length differs from
1024, `validate_embedding` records the dimension-mismatch issue (with the
actual length) and returns an invalid verdict; on the empty vector it
raises instead (`c5_counterexample`). -/
theorem c5_dimension_mismatch (l : List FVal) (hne : l ≠ []) (hlen : l.length ≠ 1024) :
    ∃ issues, validate_embedding l = .ok (false, issues) ∧ Issue.dim l.length ∈ issues := by
  obtain ⟨x, xs, rfl⟩ := List.exists_cons_of_ne_nil hne
  have hmem : Issue.dim (x :: xs).length ∈ issuesOf x xs := by
    rw [mem_issuesOf]
    left
    exact ⟨by simp, hlen⟩
  exact ⟨issuesOf x xs, verdict_false_of_mem hmem, hmem⟩

theorem c5_witness :
    ([FVal.fin 1] : List FVal) ≠ [] ∧ ([FVal.fin 1] : List FVal).length ≠ 1024 ∧
    ∃ issues, validate_embedding [FVal.fin 1] = .ok (false, issues) ∧
      Issue.dim 1 ∈ issues :=
  ⟨by simp, by norm_num, c5_dimension_mismatch [FVal.fin 1] (by simp) (by norm_num)⟩

/-- C6 (confirmed): every vector with a NaN or infinite element gets an
invalid verdict, and the issue list contains exactly one `nanAt i` per
NaN index `i` and exactly one `infAt i` per infinite index `i`, and none
at the clean indices. -/
theorem c6_nan_inf_issues (l : List FVal)
    (h : ∃ x ∈ l, x.isnan = true ∨ x.isinf = true) :
    ∃ issues, validate_embedding l = .ok (false, issues) ∧
      ∀ i (hi : i < l.length),
        issues.count (.nanAt i) = (if (l.get ⟨i, hi⟩).isnan then 1 else 0) ∧
        issues.count (.infAt i) = (if (l.get ⟨i, hi⟩).isinf then 1 else 0) := by
  obtain ⟨x0, hx0mem, hx0⟩ := h
  obtain ⟨x, xs, rfl⟩ : ∃ x xs, l = x :: xs := by
    cases l with
    | nil => simp at hx0mem
    | cons a as => exact ⟨a, as, rfl⟩
  obtain ⟨⟨i0, hi0⟩, rfl⟩ := List.mem_iff_get.1 hx0mem
  have hmem : (if ((x :: xs).get ⟨i0, hi0⟩).isnan then Issue.nanAt i0 else Issue.infAt i0) ∈
      issuesOf x xs := by
    rcases hx0 with hnan | hinf
    · rw [if_pos hnan]
      rw [← List.count_pos_iff, count_nan_issuesOf x xs i0 hi0, if_pos hnan]
      norm_num
    · by_cases hnan : ((x :: xs).get ⟨i0, hi0⟩).isnan
      · rw [if_pos hnan]
        rw [← List.count_pos_iff, count_nan_issuesOf x xs i0 hi0, if_pos hnan]
        norm_num
      · rw [if_neg hnan]
        rw [← List.count_pos_iff, count_inf_issuesOf x xs i0 hi0, if_pos hinf]
        norm_num
  refine ⟨issuesOf x xs, verdict_false_of_mem hmem, ?_⟩
  intro i hi
  exact ⟨count_nan_issuesOf x xs i hi, count_inf_issuesOf x xs i hi⟩

theorem c6_witness :
    (∃ x ∈ [FVal.nan, FVal.inf true, FVal.fin 1], x.isnan = true ∨ x.isinf = true) ∧
    ∃ issues, validate_embedding [FVal.nan, FVal.inf true, FVal.fin 1] =
        .ok (false, issues) ∧
      ∀ i (hi : i < ([FVal.nan, FVal.inf true, FVal.fin 1] : List FVal).length),
        issues.count (.nanAt i) =
          (if (([FVal.nan, FVal.inf true, FVal.fin 1] : List FVal).get ⟨i, hi⟩).isnan
            then 1 else 0) ∧
        issues.count (.infAt i) =
          (if (([FVal.nan, FVal.inf true, FVal.fin 1] : List FVal).get ⟨i, hi⟩).isinf
            then 1 else 0) :=
  ⟨⟨FVal.nan, by simp [FVal.isnan]⟩,
   c6_nan_inf_issues _ ⟨FVal.nan, by simp [FVal.isnan]⟩⟩

/-- C7, counterexample: the empty vector has L2 norm `√0 = 0 < 0.9`, yet
`validate_embedding` raises `ValueError` instead of producing the norm
issue. -/
theorem c7_counterexample :
    sumSq [] = .fin 0 ∧ Real.sqrt ((0 : ℚ) : ℝ) < 9/10 ∧
    validate_embedding [] = .error .valueError :=
  ⟨rfl, by norm_num, rfl⟩

/-- C7 (corrected): for every vector whose L2 norm lies in `[0.9, 1.1]`
(such a norm is necessarily finite, hence the finite radicand in the
first conjunct) no norm issue is produced, and for every NONEMPTY vector
whose norm is strictly below `0.9` or strictly above `1.1` the norm issue
is produced, carrying the actual radicand; `0.9` and `1.1` are literal
thresholds.  A norm strictly outside the band is either finite with
`√s < 0.9` or `√s > 1.1` (second conjunct) or infinite — the radicand is
`+∞`, as for any vector holding a `±∞` element and no NaN — and `∞ > 1.1`
holds, so the issue fires there too (third conjunct).  The empty vector
(norm `0 < 0.9`) raises instead of producing the issue
(`c7_counterexample`). -/
theorem c7_norm_check :
    (∀ (l : List FVal) (s : ℚ), sumSq l = .fin s →
      (9/10 : ℝ) ≤ Real.sqrt ((s : ℚ) : ℝ) → Real.sqrt ((s : ℚ) : ℝ) ≤ 11/10 →
      ∃ issues b, validate_embedding l = .ok (b, issues) ∧
        ∀ r, Issue.norm r ∉ issues) ∧
    (∀ (l : List FVal) (s : ℚ), l ≠ [] → sumSq l = .fin s →
      (Real.sqrt ((s : ℚ) : ℝ) < 9/10 ∨ (11/10 : ℝ) < Real.sqrt ((s : ℚ) : ℝ)) →
      ∃ issues b, validate_embedding l = .ok (b, issues) ∧
        Issue.norm (.fin s) ∈ issues) ∧
    (∀ l : List FVal, l ≠ [] → sumSq l = .inf true →
      ∃ issues b, validate_embedding l = .ok (b, issues) ∧
        Issue.norm (.inf true) ∈ issues) := by
  refine ⟨?_, ?_, ?_⟩
  · intro l s hs h1 h2
    have hne : l ≠ [] := by
      rintro rfl
      have h0 : FVal.fin 0 = FVal.fin s := hs
      injection h0 with h0
      subst h0
      norm_num at h1
    obtain ⟨x, xs, rfl⟩ := List.exists_cons_of_ne_nil hne
    have hlt : sqrtLt (.fin s) (9/10) = false := by
      rw [sqrtLt_eq_real s (9/10) (by norm_num)]
      simp only [decide_eq_false_iff_not, not_lt]
      rw [show ((9/10 : ℚ) : ℝ) = (9/10 : ℝ) by norm_num]
      exact h1
    have hgt : sqrtGt (.fin s) (11/10) = false := by
      rw [sqrtGt_eq_real s (11/10) (by norm_num)]
      simp only [decide_eq_false_iff_not, not_lt]
      rw [show ((11/10 : ℚ) : ℝ) = (11/10 : ℝ) by norm_num]
      exact h2
    refine ⟨issuesOf x xs, ((issuesOf x xs).length == 0), validate_cons x xs, ?_⟩
    intro r hmem
    rw [mem_issuesOf] at hmem
    rcases hmem with ⟨hr, _⟩ | hfin | ⟨hr, hcond⟩ | ⟨hr, _⟩ | ⟨hr, _⟩
    · simp at hr
    · rcases mem_finCheckFrom hfin with ⟨i, hi⟩ | ⟨i, hi⟩ <;> simp at hi
    · rw [hs, hlt, hgt] at hcond
      simp at hcond
    · simp at hr
    · simp at hr
  · intro l s hne hs hout
    obtain ⟨x, xs, rfl⟩ := List.exists_cons_of_ne_nil hne
    have hcond : (sqrtLt (sumSq (x :: xs)) (9/10) ||
        sqrtGt (sumSq (x :: xs)) (11/10)) = true := by
      rw [hs]
      rcases hout with h | h
      · have : sqrtLt (.fin s) (9/10) = true := by
          rw [sqrtLt_eq_real s (9/10) (by norm_num)]
          rw [show ((9/10 : ℚ) : ℝ) = (9/10 : ℝ) by norm_num]
          exact decide_eq_true h
        rw [this]
        simp
      · have : sqrtGt (.fin s) (11/10) = true := by
          rw [sqrtGt_eq_real s (11/10) (by norm_num)]
          rw [show ((11/10 : ℚ) : ℝ) = (11/10 : ℝ) by norm_num]
          exact decide_eq_true h
        rw [this]
        simp
    have hmem : Issue.norm (.fin s) ∈ issuesOf x xs := by
      rw [mem_issuesOf]
      right; right; left
      rw [hs] at hcond ⊢
      exact ⟨rfl, hcond⟩
    exact ⟨issuesOf x xs, ((issuesOf x xs).length == 0), validate_cons x xs, hmem⟩
  · intro l hne hs
    obtain ⟨x, xs, rfl⟩ := List.exists_cons_of_ne_nil hne
    have hmem : Issue.norm (.inf true) ∈ issuesOf x xs := by
      rw [mem_issuesOf]
      right; right; left
      rw [hs]
      exact ⟨rfl, rfl⟩
    exact ⟨issuesOf x xs, ((issuesOf x xs).length == 0), validate_cons x xs, hmem⟩

theorem c7_witness :
    (sumSq [FVal.fin 1] = .fin 1 ∧
      (9/10 : ℝ) ≤ Real.sqrt ((1 : ℚ) : ℝ) ∧ Real.sqrt ((1 : ℚ) : ℝ) ≤ 11/10 ∧
      ∃ issues b, validate_embedding [FVal.fin 1] = .ok (b, issues) ∧
        ∀ r, Issue.norm r ∉ issues) ∧
    (sumSq [FVal.fin 100] = .fin 10000 ∧
      (11/10 : ℝ) < Real.sqrt ((10000 : ℚ) : ℝ) ∧
      ∃ issues b, validate_embedding [FVal.fin 100] = .ok (b, issues) ∧
        Issue.norm (.fin 10000) ∈ issues) ∧
    (sumSq [FVal.inf true] = .inf true ∧
      ∃ issues b, validate_embedding [FVal.inf true] = .ok (b, issues) ∧
        Issue.norm (.inf true) ∈ issues) := by
  have hs1 : sumSq [FVal.fin 1] = .fin 1 := by
    norm_num [sumSq, addF, mulSelf]
  have hs100 : sumSq [FVal.fin 100] = .fin 10000 := by
    norm_num [sumSq, addF, mulSelf]
  have hle : (9/10 : ℝ) ≤ Real.sqrt ((1 : ℚ) : ℝ) := by
    rw [show ((1 : ℚ) : ℝ) = 1 by norm_num, Real.sqrt_one]
    norm_num
  have hge : Real.sqrt ((1 : ℚ) : ℝ) ≤ 11/10 := by
    rw [show ((1 : ℚ) : ℝ) = 1 by norm_num, Real.sqrt_one]
    norm_num
  have hbig : (11/10 : ℝ) < Real.sqrt ((10000 : ℚ) : ℝ) := by
    rw [show ((10000 : ℚ) : ℝ) = 10000 by norm_num]
    rw [Real.lt_sqrt (by norm_num)]
    norm_num
  have hsinf : sumSq [FVal.inf true] = .inf true := rfl
  exact ⟨⟨hs1, hle, hge, c7_norm_check.1 [FVal.fin 1] 1 hs1 hle hge⟩,
    ⟨hs100, hbig, c7_norm_check.2.1 [FVal.fin 100] 10000 (by simp) hs100 (Or.inr hbig)⟩,
    ⟨hsinf, c7_norm_check.2.2 [FVal.inf true] (by simp) hsinf⟩⟩

/-- C8, counterexample: the vector `[nan, 15.0]` contains the element
`15.0 > 10`, yet no range issue is produced: Python `min`/`max` keep a
NaN accumulator (every comparison with NaN is false), so both `min` and
`max` evaluate to NaN and neither range comparison holds.  The returned
issues are exactly the dimension issue and the NaN issue. -/
theorem c8_counterexample :
    validate_embedding [FVal.nan, FVal.fin 15] =
      .ok (false, [Issue.dim 2, Issue.nanAt 0]) := by
  rw [validate_cons]
  have hiss : issuesOf FVal.nan [FVal.fin 15] = [Issue.dim 2, Issue.nanAt 0] := by
    simp [issuesOf, finCheckFrom, FVal.isnan, FVal.isinf, sumSq, addF, mulSelf,
      sqrtLt, sqrtGt, pyMinVal, pyMaxVal, ltF, absF]
  rw [hiss]
  rfl

/-- C8 (corrected): for every nonempty vector whose elements are all
finite and within `[-10, 10]` no range issue is produced; and for every
vector WITHOUT NaN elements containing some element below `-10` or above
`10`, the range issue is produced.  With a NaN element the claim fails:
`min`/`max` can evaluate to NaN and suppress the issue
(`c8_counterexample`). -/
theorem c8_range_check :
    (∀ l : List FVal, l ≠ [] → (∀ x ∈ l, ∃ q, x = .fin q ∧ -10 ≤ q ∧ q ≤ 10) →
      ∃ issues b, validate_embedding l = .ok (b, issues) ∧
        ∀ mn mx, Issue.range mn mx ∉ issues) ∧
    (∀ l : List FVal, (∀ x ∈ l, x.isnan = false) →
      ((∃ x ∈ l, ltF x (.fin (-10)) = true) ∨ (∃ x ∈ l, ltF (.fin 10) x = true)) →
      ∃ issues b, validate_embedding l = .ok (b, issues) ∧
        ∃ mn mx, Issue.range mn mx ∈ issues) := by
  constructor
  · intro l hne hall
    obtain ⟨x, xs, rfl⟩ := List.exists_cons_of_ne_nil hne
    have hminP : ∃ q, pyMinVal x xs = .fin q ∧ -10 ≤ q ∧ q ≤ 10 :=
      foldl_pick (P := fun v => ∃ q, v = .fin q ∧ -10 ≤ q ∧ q ≤ 10)
        (fun acc y => if ltF y acc then y else acc)
        (fun a b => by dsimp only; split <;> [right; left] <;> rfl)
        xs x (hall x (List.mem_cons_self x xs))
        (fun y hy => hall y (List.mem_cons_of_mem x hy))
    have hmaxP : ∃ q, pyMaxVal x xs = .fin q ∧ -10 ≤ q ∧ q ≤ 10 :=
      foldl_pick (P := fun v => ∃ q, v = .fin q ∧ -10 ≤ q ∧ q ≤ 10)
        (fun acc y => if ltF acc y then y else acc)
        (fun a b => by dsimp only; split <;> [right; left] <;> rfl)
        xs x (hall x (List.mem_cons_self x xs))
        (fun y hy => hall y (List.mem_cons_of_mem x hy))
    obtain ⟨qmin, hqmin, hq1, _⟩ := hminP
    obtain ⟨qmax, hqmax, _, hq4⟩ := hmaxP
    have hltmin : ltF (pyMinVal x xs) (.fin (-10)) = false := by
      rw [hqmin]
      simp only [ltF, decide_eq_false_iff_not, not_lt]
      linarith
    have hltmax : ltF (.fin 10) (pyMaxVal x xs) = false := by
      rw [hqmax]
      simp only [ltF, decide_eq_false_iff_not, not_lt]
      linarith
    refine ⟨issuesOf x xs, ((issuesOf x xs).length == 0), validate_cons x xs, ?_⟩
    intro mn mx hmem
    rw [mem_issuesOf] at hmem
    rcases hmem with ⟨hr, _⟩ | hfin | ⟨hr, _⟩ | ⟨hr, hcond⟩ | ⟨hr, _⟩
    · simp at hr
    · rcases mem_finCheckFrom hfin with ⟨i, hi⟩ | ⟨i, hi⟩ <;> simp at hi
    · simp at hr
    · rw [hltmin, hltmax] at hcond
      simp at hcond
    · simp at hr
  · intro l hnonan hout
    have hne : l ≠ [] := by
      rcases hout with ⟨x0, hx0, _⟩ | ⟨x0, hx0, _⟩ <;>
        exact List.ne_nil_of_mem hx0
    obtain ⟨x, xs, rfl⟩ := List.exists_cons_of_ne_nil hne
    have hx : x.isnan = false := hnonan x (List.mem_cons_self x xs)
    have hxs : ∀ y ∈ xs, y.isnan = false :=
      fun y hy => hnonan y (List.mem_cons_of_mem x hy)
    have hcond : (ltF (pyMinVal x xs) (.fin (-10)) ||
        ltF (.fin 10) (pyMaxVal x xs)) = true := by
      rcases hout with ⟨x0, hx0, hlt⟩ | ⟨x0, hx0, hlt⟩
      · have : ltF (pyMinVal x xs) (.fin (-10)) = true := by
          apply pyMinVal_lt xs x hx hxs
          rcases List.mem_cons.1 hx0 with rfl | hmem
          · exact Or.inl hlt
          · exact Or.inr ⟨x0, hmem, hlt⟩
        rw [this]
        simp
      · have : ltF (.fin 10) (pyMaxVal x xs) = true := by
          apply pyMaxVal_gt xs x hx hxs
          rcases List.mem_cons.1 hx0 with rfl | hmem
          · exact Or.inl hlt
          · exact Or.inr ⟨x0, hmem, hlt⟩
        rw [this]
        simp
    have hmem : Issue.range (pyMinVal x xs) (pyMaxVal x xs) ∈ issuesOf x xs := by
      rw [mem_issuesOf]
      right; right; right; left
      exact ⟨rfl, hcond⟩
    exact ⟨issuesOf x xs, ((issuesOf x xs).length == 0), validate_cons x xs,
      pyMinVal x xs, pyMaxVal x xs, hmem⟩

theorem c8_witness :
    (([FVal.fin 0] : List FVal) ≠ [] ∧
      ∃ issues b, validate_embedding [FVal.fin 0] = .ok (b, issues) ∧
        ∀ mn mx, Issue.range mn mx ∉ issues) ∧
    ((∀ x ∈ ([FVal.fin 15] : List FVal), x.isnan = false) ∧
      ∃ issues b, validate_embedding [FVal.fin 15] = .ok (b, issues) ∧
        ∃ mn mx, Issue.range mn mx ∈ issues) := by
  have hall : ∀ x ∈ ([FVal.fin 0] : List FVal), ∃ q, x = .fin q ∧ -10 ≤ q ∧ q ≤ 10 := by
    intro x hx
    simp only [List.mem_singleton] at hx
    subst hx
    exact ⟨0, rfl, by norm_num, by norm_num⟩
  have hnonan : ∀ x ∈ ([FVal.fin 15] : List FVal), x.isnan = false := by
    intro x hx
    simp only [List.mem_singleton] at hx
    subst hx
    rfl
  have hbig : ltF (.fin 10) (FVal.fin 15) = true := by
    simp only [ltF, decide_eq_true_eq]
    norm_num
  exact ⟨⟨by simp, c8_range_check.1 [FVal.fin 0] (by simp) hall⟩,
    ⟨hnonan, c8_range_check.2 [FVal.fin 15] hnonan
      (Or.inr ⟨FVal.fin 15, List.mem_singleton_self _, hbig⟩)⟩⟩

/-! ### The all-zero vector -/

theorem finCheckFrom_replicate_zero : ∀ (n k : Nat),
    finCheckFrom k (List.replicate n (.fin 0)) = [] := by
  intro n
  induction n with
  | zero => intro k; rfl
  | succ n ih =>
      intro k
      rw [List.replicate_succ, finCheckFrom, ih]
      simp [FVal.isnan, FVal.isinf]

theorem sumSq_replicate_zero (n : Nat) : sumSq (List.replicate n (.fin 0)) = .fin 0 := by
  have aux : ∀ (n : Nat) (q : ℚ),
      (List.replicate n (FVal.fin 0)).foldl (fun acc x => addF acc (mulSelf x)) (.fin q) =
        .fin q := by
    intro n
    induction n with
    | zero => intro q; rfl
    | succ n ih =>
        intro q
        rw [List.replicate_succ, List.foldl_cons]
        have hstep : addF (.fin q) (mulSelf (.fin 0)) = .fin q := by
          norm_num [addF, mulSelf]
        rw [hstep, ih]
  exact aux n 0

theorem pyMinVal_replicate_zero (n : Nat) :
    pyMinVal (.fin 0) (List.replicate n (.fin 0)) = .fin 0 := by
  unfold pyMinVal
  induction n with
  | zero => rfl
  | succ n ih =>
      rw [List.replicate_succ, List.foldl_cons]
      have hstep : (if ltF (FVal.fin 0) (.fin 0) then FVal.fin 0 else FVal.fin 0) =
          FVal.fin 0 := by
        split <;> rfl
      rw [hstep, ih]

theorem pyMaxVal_replicate_zero (n : Nat) :
    pyMaxVal (.fin 0) (List.replicate n (.fin 0)) = .fin 0 := by
  unfold pyMaxVal
  induction n with
  | zero => rfl
  | succ n ih =>
      rw [List.replicate_succ, List.foldl_cons]
      have hstep : (if ltF (FVal.fin 0) (.fin 0) then FVal.fin 0 else FVal.fin 0) =
          FVal.fin 0 := by
        split <;> rfl
      rw [hstep, ih]

theorem all_zero_replicate (n : Nat) :
    (List.replicate n (FVal.fin 0)).all (fun x => ltF (absF x) (.fin (1/1000000))) = true := by
  induction n with
  | zero => rfl
  | succ n ih =>
      rw [List.replicate_succ, List.all_cons, ih]
      have : ltF (absF (FVal.fin 0)) (.fin (1/1000000)) = true := by
        simp only [absF, ltF, decide_eq_true_eq]
        norm_num
      rw [this]
      rfl

/-- C9 (confirmed): the 1024-zero vector yields an invalid verdict whose
issue list is exactly the norm issue (radicand 0, i.e. norm `0 < 0.9`)
followed by the degeneracy issue; and in general, on every run that
returns, the degeneracy issue appears iff every element has absolute
value strictly below `1e-6`. -/
theorem c9_all_zero :
    validate_embedding (List.replicate 1024 (.fin 0)) =
      .ok (false, [Issue.norm (.fin 0), Issue.allZero]) ∧
    (∀ (l : List FVal) (b : Bool) (issues : List Issue),
      validate_embedding l = .ok (b, issues) →
      (Issue.allZero ∈ issues ↔ ∀ x ∈ l, ltF (absF x) (.fin (1/1000000)) = true)) := by
  constructor
  · rw [show (1024 : ℕ) = 1023 + 1 by norm_num, List.replicate_succ, validate_cons]
    have hcons : FVal.fin 0 :: List.replicate 1023 (FVal.fin 0) =
        List.replicate 1024 (FVal.fin 0) :=
      (List.replicate_succ (FVal.fin 0) 1023).symm
    have hiss : issuesOf (.fin 0) (List.replicate 1023 (.fin 0)) =
        [Issue.norm (.fin 0), Issue.allZero] := by
      rw [issuesOf, hcons, sumSq_replicate_zero, pyMinVal_replicate_zero,
        pyMaxVal_replicate_zero, finCheckFrom_replicate_zero, all_zero_replicate]
      have hdim : ¬((List.replicate 1024 (FVal.fin 0)).length ≠ 1024) := by
        rw [List.length_replicate]
        norm_num
      have hnorm : (sqrtLt (.fin 0) (9/10) || sqrtGt (.fin 0) (11/10)) = true := by
        have : sqrtLt (.fin 0) (9/10) = true := by
          simp only [sqrtLt, decide_eq_true_eq]
          norm_num
        rw [this]
        rfl
      have hrange : (ltF (FVal.fin 0) (.fin (-10)) || ltF (.fin 10) (FVal.fin 0)) = false := by
        have h1 : ltF (FVal.fin 0) (.fin (-10)) = false := by
          simp only [ltF, decide_eq_false_iff_not, not_lt]
          norm_num
        have h2 : ltF (FVal.fin 10) (FVal.fin 0) = false := by
          simp only [ltF, decide_eq_false_iff_not, not_lt]
          norm_num
        rw [h1, h2]
        rfl
      rw [if_neg hdim, if_pos hnorm, if_neg (by rw [hrange]; simp), if_pos rfl]
      rfl
    rw [hiss]
    rfl
  · intro l b issues hval
    cases l with
    | nil => exact absurd hval (by rw [c5_counterexample.2]; simp)
    | cons x xs =>
        obtain ⟨_, hiss⟩ := validate_ok_inj hval
        subst hiss
        constructor
        · intro hmem
          rw [mem_issuesOf] at hmem
          rcases hmem with ⟨hr, _⟩ | hfin | ⟨hr, _⟩ | ⟨hr, _⟩ | ⟨_, hall⟩
          · simp at hr
          · rcases mem_finCheckFrom hfin with ⟨i, hi⟩ | ⟨i, hi⟩ <;> simp at hi
          · simp at hr
          · simp at hr
          · exact List.all_eq_true.1 hall
        · intro hall
          rw [mem_issuesOf]
          right; right; right; right
          exact ⟨rfl, List.all_eq_true.2 hall⟩

theorem c9_witness :
    Issue.allZero ∈ [Issue.norm (.fin 0), Issue.allZero] ↔
      ∀ x ∈ List.replicate 1024 (FVal.fin 0),
        ltF (absF x) (.fin (1/1000000)) = true :=
  c9_all_zero.2 (List.replicate 1024 (.fin 0)) false
    [Issue.norm (.fin 0), Issue.allZero] c9_all_zero.1

/-- C10 (confirmed): one NaN element makes the computed norm NaN
(`calculate_norm` returns the NaN radicand), and since neither
`NaN < 0.9` nor `NaN > 1.1` holds, no norm issue is ever produced,
however large the other elements are. -/
theorem c10_nan_suppresses_norm_issue (l : List FVal) (h : ∃ x ∈ l, x.isnan = true) :
    calculate_norm l = .ok .nan ∧
    ∀ (b : Bool) (issues : List Issue), validate_embedding l = .ok (b, issues) →
      ∀ r, Issue.norm r ∉ issues := by
  have hnan : sumSq l = .nan := sumSq_nan h
  constructor
  · rw [calculate_norm_ok, hnan]
  · intro b issues hval r hmem
    obtain ⟨x0, hx0, _⟩ := h
    obtain ⟨x, xs, rfl⟩ : ∃ x xs, l = x :: xs := by
      cases l with
      | nil => simp at hx0
      | cons a as => exact ⟨a, as, rfl⟩
    obtain ⟨_, hiss⟩ := validate_ok_inj hval
    subst hiss
    rw [mem_issuesOf] at hmem
    rcases hmem with ⟨hr, _⟩ | hfin | ⟨hr, hcond⟩ | ⟨hr, _⟩ | ⟨hr, _⟩
    · simp at hr
    · rcases mem_finCheckFrom hfin with ⟨i, hi⟩ | ⟨i, hi⟩ <;> simp at hi
    · rw [hnan] at hcond
      simp [sqrtLt, sqrtGt] at hcond
    · simp at hr
    · simp at hr

theorem c10_witness :
    (∃ x ∈ [FVal.nan, FVal.fin 100], x.isnan = true) ∧
    (calculate_norm [FVal.nan, FVal.fin 100] = .ok .nan ∧
      ∀ (b : Bool) (issues : List Issue),
        validate_embedding [FVal.nan, FVal.fin 100] = .ok (b, issues) →
        ∀ r, Issue.norm r ∉ issues) :=
  ⟨⟨FVal.nan, by simp [FVal.isnan]⟩,
   c10_nan_suppresses_norm_issue [FVal.nan, FVal.fin 100] ⟨FVal.nan, by simp [FVal.isnan]⟩⟩
